import Mathlib

/-!
Verification of the Sparkle event system (`src/include/Sparkle/Event.h`).

The registry `std::unordered_map<void *, std::vector<LifecycleCallback>> Binds`
is embedded as an association list from subscriber keys (object addresses,
modelled as naturals) to the ordered sequence of lifecycle callbacks stored
under that key.  A lifecycle callback is one of the closures built by the
`Bind` overloads; each is fully determined by the kind of reference it
captured, the identity of the user callback it wraps, and its `bindOnce`
flag, so it is embedded as that record.  Object liveness (`weak_ptr` expiry)
is an oracle `alive : Ptr → Bool` supplied to each operation that consults it.

`Raise` forwards the same by-value argument pack to every lifecycle callback
with `std::forward<Args>(args)...`; for an argument type whose move leaves the
source in a changed (moved-from) state this mutates the argument slot between
callbacks.  The embedding makes this visible by a move-behaviour parameter
`mv : A → A` giving the residual value left after the slot is moved from
(`id` for trivially copyable types such as `int`).
-/

set_option autoImplicit false

namespace Sparkle

/-- Machine addresses (the `void *` keys of the registry) modelled as naturals. -/
abbrev Ptr : Type := Nat

/-- The null pointer. -/
def nullptr : Ptr := 0

/-- Sentinel key for subscriptions not tied to any object:
`static void *StandaloneCallbackKey = reinterpret_cast<void *>(-1);`
on a 64-bit target (Event.h line 124). -/
def StandaloneCallbackKey : Ptr := 2 ^ 64 - 1

/-- Which kind of reference a lifecycle closure captured.  `owningRef` covers
the raw-pointer lambdas (Event.h lines 68 and 111), `weakRef target` the two
weak-pointer lambdas (lines 80 and 96, which capture `weak` and test it before
calling through), and `standaloneRef` the object-less lambda (line 120). -/
inductive RefKind : Type where
  | owningRef : RefKind
  | weakRef (target : Ptr) : RefKind
  | standaloneRef : RefKind
deriving DecidableEq, Repr

/-- A lifecycle callback (`LifecycleCallback`, Event.h line 39): the closure
pushed into a `Binds` vector.  `ref` is the captured reference kind, `f` the
identity of the captured user callback, `once` the captured `bindOnce` flag. -/
structure LCB : Type where
  ref : RefKind
  f : Nat
  once : Bool
deriving DecidableEq, Repr

/-- The registry `Binds` (Event.h line 44), as an association list kept in
insertion order.  `std::unordered_map` iteration order is unspecified, and no
claim depends on the cross-key order, so any fixed order is a faithful model. -/
abbrev Binds : Type := List (Ptr × List LCB)

/-- Does the map contain key `t` (`Binds.find(t) != Binds.end()`)? -/
def containsKey (B : Binds) (t : Ptr) : Bool :=
  B.any (fun p => p.1 == t)

/-- Look up the callback vector stored under key `t`. -/
def lookupKey : Binds → Ptr → Option (List LCB)
  | [], _ => none
  | (k, cs) :: rest, t => if k == t then some cs else lookupKey rest t

/-- `EventBinder::InternalBind` (Event.h lines 50-62): `push_back` onto the
existing vector for `t`, or insert a fresh singleton vector. -/
def InternalBind : Binds → LCB → Ptr → Binds
  | [], bound, t => [(t, [bound])]
  | (k, cs) :: rest, bound, t =>
    if k == t then (k, cs ++ [bound]) :: rest
    else (k, cs) :: InternalBind rest bound t

/-- `weak_ptr::lock` for a weak reference to the object at address `w`:
succeeds (returning the address) exactly when the object is still alive. -/
def lock (alive : Ptr → Bool) (w : Ptr) : Option Ptr :=
  if alive w then some w else none

/-- The owning-pointer `Bind` overloads (Event.h lines 64-73 and 107-116):
`assert(t != nullptr)` — modelled as `none` on a null pointer — then wrap
`f` in a lifecycle lambda that always invokes it and returns `!bindOnce`. -/
def BindOwning (B : Binds) (f : Nat) (t : Ptr) (bindOnce : Bool) : Option Binds :=
  if t = nullptr then none
  else some (InternalBind B ⟨RefKind.owningRef, f, bindOnce⟩ t)

/-- The weak-reference `Bind` overloads (Event.h lines 75-89 and 91-105): if
`weak.lock()` fails the bind silently does nothing; otherwise the lifecycle
lambda captures `weak`, testing liveness before each invocation, and the key
is the locked object's address. -/
def BindWeakCb (alive : Ptr → Bool) (B : Binds) (f : Nat) (w : Ptr) (bindOnce : Bool) : Binds :=
  match lock alive w with
  | some t => InternalBind B ⟨RefKind.weakRef w, f, bindOnce⟩ t
  | none => B

/-- The object-less `Bind` overload (Event.h lines 118-126): registered under
the shared sentinel key. -/
def BindStandalone (B : Binds) (f : Nat) (bindOnce : Bool) : Binds :=
  InternalBind B ⟨RefKind.standaloneRef, f, bindOnce⟩ StandaloneCallbackKey

/-- `EventBinder::RemoveAll` (Event.h lines 131-134): `Binds.clear()`. -/
def RemoveAll (_B : Binds) : Binds := []

/-- `EventBinder::IsBound(T *)` (Event.h lines 140-145): asserts the pointer
is non-null (`none` on null), then reports map membership. -/
def IsBound (B : Binds) (t : Ptr) : Option Bool :=
  if t = nullptr then none else some (containsKey B t)

/-- `EventBinder::IsBound(weak_ptr)` (Event.h lines 151-159): lock, delegate
to the raw overload on success, `false` when expired. -/
def IsBoundWeak (alive : Ptr → Bool) (B : Binds) (w : Ptr) : Option Bool :=
  match lock alive w with
  | some t => IsBound B t
  | none => some false

/-- `EventBinder::IsBound(shared_ptr)` (Event.h lines 165-173): delegate to
the raw overload when non-null, `false` on an empty shared pointer (the
shared pointer is modelled as `Option Ptr`, `none` meaning empty). -/
def IsBoundShared (B : Binds) (sp : Option Ptr) : Option Bool :=
  match sp with
  | some t => IsBound B t
  | none => some false

/-- Erase the single map entry found for key `t` (`Binds.erase(it)`). -/
def eraseKey : Binds → Ptr → Binds
  | [], _ => []
  | (k, cs) :: rest, t => if k == t then rest else (k, cs) :: eraseKey rest t

/-- `EventBinder::Remove(T *)` (Event.h lines 357-369): asserts non-null
(`none` on null); erases the whole entry when found and reports whether
anything was removed. -/
def Remove (B : Binds) (t : Ptr) : Option (Binds × Bool) :=
  if t = nullptr then none
  else if containsKey B t then some (eraseKey B t, true)
  else some (B, false)

/-- `EventBinder::Remove(weak_ptr)` (Event.h lines 375-383): lock, delegate
to the raw overload on success, `false` (with the registry unchanged) when
the reference is already expired. -/
def RemoveWeak (alive : Ptr → Bool) (B : Binds) (w : Ptr) : Option (Binds × Bool) :=
  match lock alive w with
  | some t => Remove B t
  | none => some (B, false)

/-- `EventBinder::Remove(shared_ptr)` (Event.h lines 389-397): delegate when
non-null, `false` (registry unchanged) on an empty shared pointer. -/
def RemoveShared (B : Binds) (sp : Option Ptr) : Option (Binds × Bool) :=
  match sp with
  | some t => Remove B t
  | none => some (B, false)

/-- Run one lifecycle callback and return its boolean result (`true` = keep
registered).  The weak lambdas test liveness first and report dead on expiry;
every shape returns `!bindOnce` after a successful invocation. -/
def runLCB (alive : Ptr → Bool) (c : LCB) : Bool :=
  match c.ref with
  | RefKind.weakRef o => if alive o then !c.once else false
  | _ => !c.once

/-- Does running this lifecycle callback invoke the wrapped user callback?
Only a weak-reference callback whose target has expired skips the call. -/
def invokesLCB (alive : Ptr → Bool) (c : LCB) : Bool :=
  match c.ref with
  | RefKind.weakRef o => alive o
  | _ => true

/-- Invocation trace of one `Raise`: for each user callback actually invoked,
the subscriber key it was registered under, its identity, and the argument
value it observed. -/
abbrev Trace (A : Type) : Type := List (Ptr × Nat × A)

/-- One key's pass of `Raise` (Event.h lines 427-431): `std::remove_if` calls
every lifecycle callback once, in order, keeping those that return `true`.
Each call `cb(std::forward<Args>(args)...)` re-forwards the same by-value
argument slot as an rvalue, so the callback observes the current slot value
and leaves the slot moved-from (`mv`), whether or not the inner liveness
check lets the user callback run.  Returns (kept callbacks, trace, slot). -/
def raiseVec {A : Type} (alive : Ptr → Bool) (mv : A → A) (k : Ptr) :
    List LCB → A → List LCB × Trace A × A
  | [], a => ([], [], a)
  | c :: cs, a =>
    let r := raiseVec alive mv k cs (mv a)
    ((if runLCB alive c then [c] else []) ++ r.1,
     (if invokesLCB alive c then [(k, c.f, a)] else []) ++ r.2.1,
     r.2.2)

/-- The key loop of `Event::Raise` (Event.h lines 425-441): process each
entry's vector; if it is empty afterwards, erase the entry. -/
def raiseBinds {A : Type} (alive : Ptr → Bool) (mv : A → A) :
    Binds → A → Binds × Trace A × A
  | [], a => ([], [], a)
  | (k, cs) :: rest, a =>
    let r1 := raiseVec alive mv k cs a
    let r2 := raiseBinds alive mv rest r1.2.2
    ((if r1.1.isEmpty then [] else [(k, r1.1)]) ++ r2.1,
     r1.2.1 ++ r2.2.1,
     r2.2.2)

/-- `Event::Raise` (Event.h lines 423-442): the resulting registry and the
invocation trace. -/
def Raise {A : Type} (alive : Ptr → Bool) (mv : A → A) (B : Binds) (a : A) :
    Binds × Trace A :=
  ((raiseBinds alive mv B a).1, (raiseBinds alive mv B a).2.1)

/-- `Event::Size` (Event.h lines 446-449): number of distinct subscriber keys. -/
def Size (B : Binds) : Nat := B.length

/-- `Event::CallbackCount` (Event.h lines 453-458): total callbacks across keys. -/
def CallbackCount (B : Binds) : Nat :=
  (B.map (fun p => p.2.length)).sum

/-- A public operation on the registry.  Bind operations carry their `once`
flag (`BindOnce` is the `once := true` instance); operations that consult
object liveness carry the oracle in force when they run, so a trace of
operations can interleave object destruction with registry calls. -/
inductive Op (A : Type) : Type where
  | bindOwning (f : Nat) (t : Ptr) (once : Bool) : Op A
  | bindWeak (alive : Ptr → Bool) (f : Nat) (w : Ptr) (once : Bool) : Op A
  | bindStandalone (f : Nat) (once : Bool) : Op A
  | removeOp (t : Ptr) : Op A
  | removeWeakOp (alive : Ptr → Bool) (w : Ptr) : Op A
  | removeSharedOp (sp : Option Ptr) : Op A
  | removeAllOp : Op A
  | raiseOp (alive : Ptr → Bool) (a : A) : Op A

/-- Apply one operation to the registry; `none` means the operation tripped
the null-pointer assertion, so the program has no successor state. -/
def applyOp {A : Type} (mv : A → A) (op : Op A) (B : Binds) : Option Binds :=
  match op with
  | Op.bindOwning f t once => BindOwning B f t once
  | Op.bindWeak alive f w once => some (BindWeakCb alive B f w once)
  | Op.bindStandalone f once => some (BindStandalone B f once)
  | Op.removeOp t => (Remove B t).map Prod.fst
  | Op.removeWeakOp alive w => (RemoveWeak alive B w).map Prod.fst
  | Op.removeSharedOp sp => (RemoveShared B sp).map Prod.fst
  | Op.removeAllOp => some (RemoveAll B)
  | Op.raiseOp alive a => some (Raise alive mv B a).1

/-- Registry states reachable from the freshly constructed (empty) event by
any sequence of public operations. -/
inductive Reachable {A : Type} (mv : A → A) : Binds → Prop where
  | init : Reachable mv []
  | step (op : Op A) (B B' : Binds) : Reachable mv B → applyOp mv op B = some B' →
      Reachable mv B'

/-- A sequence of `Raise` calls, each under its own liveness oracle and with
its own argument; returns the final registry and the concatenated trace. -/
def raiseSeq {A : Type} (mv : A → A) : Binds → List ((Ptr → Bool) × A) → Binds × Trace A
  | B, [] => (B, [])
  | B, (al, a) :: rest =>
    let r := Raise al mv B a
    let r2 := raiseSeq mv r.1 rest
    (r2.1, r.2 ++ r2.2)

/-- How many lifecycle callbacks in this vector wrap the user callback `f0`. -/
def countF (cs : List LCB) (f0 : Nat) : Nat :=
  (cs.filter (fun c => c.f == f0)).length

/-- How many registered lifecycle callbacks across the registry wrap `f0`. -/
def countStateF (B : Binds) (f0 : Nat) : Nat :=
  (B.map (fun p => countF p.2 f0)).sum

/-- How many invocations of the user callback `f0` a trace records. -/
def countTraceF {A : Type} (tr : Trace A) (f0 : Nat) : Nat :=
  (tr.filter (fun e => e.2.1 == f0)).length

/-- Well-formedness of the registry: keys are pairwise distinct (it models a
map) and every stored callback vector is non-empty. -/
def WF (B : Binds) : Prop :=
  (B.map Prod.fst).Nodup ∧ ∀ p ∈ B, p.2 ≠ []

/-! ### Basic registry lemmas -/

theorem containsKey_iff (B : Binds) (t : Ptr) :
    containsKey B t = true ↔ t ∈ B.map Prod.fst := by
  simp only [containsKey, List.any_eq_true, beq_iff_eq, List.mem_map]

theorem containsKey_cons_ne (k : Ptr) (cs : List LCB) (rest : Binds) (t : Ptr)
    (hk : k ≠ t) : containsKey ((k, cs) :: rest) t = containsKey rest t := by
  simp [containsKey, hk]

theorem lookupKey_cons_ne (k : Ptr) (cs : List LCB) (rest : Binds) (t : Ptr)
    (hk : k ≠ t) : lookupKey ((k, cs) :: rest) t = lookupKey rest t := by
  simp [lookupKey, hk]

theorem lookupKey_isSome (B : Binds) (t : Ptr) :
    containsKey B t = true ↔ ∃ cs, lookupKey B t = some cs := by
  induction B with
  | nil => simp [containsKey, lookupKey]
  | cons p rest ih =>
    obtain ⟨k, cs⟩ := p
    by_cases hk : k = t
    · subst hk
      simp [containsKey, lookupKey]
    · rw [containsKey_cons_ne k cs rest t hk, lookupKey_cons_ne k cs rest t hk]
      exact ih

theorem lookupKey_mem (B : Binds) (t : Ptr) (cs : List LCB)
    (h : lookupKey B t = some cs) : (t, cs) ∈ B := by
  induction B with
  | nil => simp [lookupKey] at h
  | cons p rest ih =>
    obtain ⟨k, cs'⟩ := p
    by_cases hk : k = t
    · subst hk
      simp only [lookupKey, beq_self_eq_true, if_true, Option.some.injEq] at h
      subst h
      exact List.mem_cons_self _ _
    · simp only [lookupKey, beq_iff_eq, hk, if_false] at h
      exact List.mem_cons_of_mem _ (ih h)

theorem lookupKey_mem_keys (B : Binds) (t : Ptr) (cs : List LCB)
    (h : lookupKey B t = some cs) : t ∈ B.map Prod.fst :=
  List.mem_map.mpr ⟨(t, cs), lookupKey_mem B t cs h, rfl⟩

theorem InternalBind_keys (B : Binds) (c : LCB) (t : Ptr) :
    (InternalBind B c t).map Prod.fst
      = if containsKey B t then B.map Prod.fst else B.map Prod.fst ++ [t] := by
  induction B with
  | nil => simp [InternalBind, containsKey]
  | cons p rest ih =>
    obtain ⟨k, cs⟩ := p
    by_cases hk : k = t
    · subst hk
      simp [InternalBind, containsKey]
    · rw [containsKey_cons_ne k cs rest t hk]
      have hib : InternalBind ((k, cs) :: rest) c t = (k, cs) :: InternalBind rest c t := by
        simp [InternalBind, hk]
      rw [hib, List.map_cons, ih]
      by_cases hc : containsKey rest t
      · simp [hc]
      · simp [hc]

theorem InternalBind_lookup (B : Binds) (c : LCB) (t : Ptr) :
    lookupKey (InternalBind B c t) t = some ((lookupKey B t).getD [] ++ [c]) := by
  induction B with
  | nil => simp [InternalBind, lookupKey]
  | cons p rest ih =>
    obtain ⟨k, cs⟩ := p
    by_cases hk : k = t
    · subst hk
      simp [InternalBind, lookupKey]
    · simp [InternalBind, lookupKey, hk, ih]

theorem InternalBind_mem (B : Binds) (c : LCB) (t : Ptr) (p : Ptr × List LCB)
    (h : p ∈ InternalBind B c t) :
    p ∈ B ∨ (∃ cs, p = (t, cs ++ [c])) ∨ p = (t, [c]) := by
  induction B with
  | nil =>
    simp only [InternalBind, List.mem_singleton] at h
    exact Or.inr (Or.inr h)
  | cons q rest ih =>
    obtain ⟨k, cs⟩ := q
    by_cases hk : k = t
    · subst hk
      simp only [InternalBind, beq_self_eq_true, if_true, List.mem_cons] at h
      rcases h with h | h
      · exact Or.inr (Or.inl ⟨cs, h⟩)
      · exact Or.inl (List.mem_cons_of_mem _ h)
    · simp only [InternalBind, beq_iff_eq, hk, if_false, List.mem_cons] at h
      rcases h with h | h
      · exact Or.inl (h ▸ List.mem_cons_self _ _)
      · rcases ih h with h' | h' | h'
        · exact Or.inl (List.mem_cons_of_mem _ h')
        · exact Or.inr (Or.inl h')
        · exact Or.inr (Or.inr h')

theorem eraseKey_keys_sublist (B : Binds) (t : Ptr) :
    List.Sublist ((eraseKey B t).map Prod.fst) (B.map Prod.fst) := by
  induction B with
  | nil => simp [eraseKey]
  | cons p rest ih =>
    obtain ⟨k, cs⟩ := p
    by_cases hk : k = t
    · subst hk
      have he : eraseKey ((k, cs) :: rest) k = rest := by simp [eraseKey]
      rw [he, List.map_cons]
      exact List.sublist_cons_self _ _
    · have he : eraseKey ((k, cs) :: rest) t = (k, cs) :: eraseKey rest t := by
        simp [eraseKey, hk]
      rw [he, List.map_cons, List.map_cons]
      exact ih.cons₂ _

theorem eraseKey_subset (B : Binds) (t : Ptr) (p : Ptr × List LCB)
    (h : p ∈ eraseKey B t) : p ∈ B := by
  induction B with
  | nil => simp [eraseKey] at h
  | cons q rest ih =>
    obtain ⟨k, cs⟩ := q
    by_cases hk : k = t
    · subst hk
      simp only [eraseKey, beq_self_eq_true, if_true] at h
      exact List.mem_cons_of_mem _ h
    · simp only [eraseKey, beq_iff_eq, hk, if_false, List.mem_cons] at h
      rcases h with h | h
      · exact h ▸ List.mem_cons_self _ _
      · exact List.mem_cons_of_mem _ (ih h)

theorem eraseKey_not_containsKey (B : Binds) (t : Ptr)
    (hnd : (B.map Prod.fst).Nodup) : containsKey (eraseKey B t) t = false := by
  induction B with
  | nil => simp [eraseKey, containsKey]
  | cons p rest ih =>
    obtain ⟨k, cs⟩ := p
    simp only [List.map_cons, List.nodup_cons] at hnd
    by_cases hk : k = t
    · subst hk
      simp only [eraseKey, beq_self_eq_true, if_true]
      rw [Bool.eq_false_iff]
      intro hc
      exact hnd.1 ((containsKey_iff rest k).mp hc)
    · simp only [eraseKey, beq_iff_eq, hk, if_false, containsKey, List.any_cons]
      rw [containsKey] at ih
      simp [hk, ih hnd.2]

/-! ### Lemmas about one key's raise pass -/

theorem runLCB_of_once (alive : Ptr → Bool) (c : LCB) (h : c.once = true) :
    runLCB alive c = false := by
  unfold runLCB
  cases c.ref with
  | weakRef o => cases alive o <;> simp [h]
  | owningRef => simp [h]
  | standaloneRef => simp [h]

theorem raiseVec_fst {A : Type} (alive : Ptr → Bool) (mv : A → A) (k : Ptr)
    (cs : List LCB) (a : A) :
    (raiseVec alive mv k cs a).1 = cs.filter (fun c => runLCB alive c) := by
  induction cs generalizing a with
  | nil => simp [raiseVec]
  | cons c cs ih =>
    rw [raiseVec]
    cases hr : runLCB alive c <;> simp [List.filter_cons, hr, ih]

theorem raiseVec_trace_key {A : Type} (alive : Ptr → Bool) (mv : A → A) (k : Ptr)
    (cs : List LCB) (a : A) :
    ∀ e ∈ (raiseVec alive mv k cs a).2.1, e.1 = k := by
  induction cs generalizing a with
  | nil => simp [raiseVec]
  | cons c cs ih =>
    intro e he
    rw [raiseVec] at he
    simp only [List.mem_append] at he
    rcases he with he | he
    · cases hi : invokesLCB alive c <;> rw [hi] at he <;> simp at he
      rw [he]
    · exact ih (mv a) e he

theorem raiseVec_trace_map {A : Type} (alive : Ptr → Bool) (mv : A → A) (k : Ptr)
    (cs : List LCB) (a : A) :
    ((raiseVec alive mv k cs a).2.1).map (fun e => e.2.1)
      = (cs.filter (fun c => invokesLCB alive c)).map (fun c => c.f) := by
  induction cs generalizing a with
  | nil => simp [raiseVec]
  | cons c cs ih =>
    rw [raiseVec]
    cases hi : invokesLCB alive c <;> simp [List.filter_cons, hi, ih]

theorem raiseVec_trace_nil {A : Type} (alive : Ptr → Bool) (mv : A → A) (k : Ptr)
    (cs : List LCB) (a : A) (h : ∀ c ∈ cs, invokesLCB alive c = false) :
    (raiseVec alive mv k cs a).2.1 = [] := by
  induction cs generalizing a with
  | nil => simp [raiseVec]
  | cons c cs ih =>
    rw [raiseVec]
    have hc := h c (List.mem_cons_self _ _)
    simp only [hc, if_false, List.nil_append]
    exact ih (mv a) (fun c hcc => h c (List.mem_cons_of_mem _ hcc))

theorem countTraceF_eq_count_map {A : Type} (tr : Trace A) (f0 : Nat) :
    countTraceF tr f0 = ((tr.map (fun e => e.2.1)).filter (fun y => y == f0)).length := by
  rw [List.filter_map, List.length_map]
  rfl

theorem countF_eq_count_map (cs : List LCB) (f0 : Nat) :
    countF cs f0 = ((cs.map (fun c => c.f)).filter (fun y => y == f0)).length := by
  rw [List.filter_map, List.length_map]
  rfl

theorem raiseVec_trace_countF {A : Type} (alive : Ptr → Bool) (mv : A → A) (k : Ptr)
    (cs : List LCB) (a : A) (f0 : Nat) :
    countTraceF (raiseVec alive mv k cs a).2.1 f0
      = countF (cs.filter (fun c => invokesLCB alive c)) f0 := by
  rw [countTraceF_eq_count_map, raiseVec_trace_map, ← countF_eq_count_map]

/-! ### Lemmas about the full raise loop -/

theorem raiseBinds_keys_sublist {A : Type} (alive : Ptr → Bool) (mv : A → A)
    (B : Binds) (a : A) :
    List.Sublist ((raiseBinds alive mv B a).1.map Prod.fst) (B.map Prod.fst) := by
  induction B generalizing a with
  | nil => simp [raiseBinds]
  | cons p rest ih =>
    obtain ⟨k, cs⟩ := p
    rw [raiseBinds]
    cases he : (raiseVec alive mv k cs a).1.isEmpty
    · simp only [Bool.false_eq_true, if_false, List.map_append, List.map_cons]
      exact ((ih _).cons₂ k)
    · simp only [if_true, List.map_append, List.map_cons, List.map_nil, List.nil_append]
      exact ((ih _).cons k)

theorem raiseBinds_trace_key_mem {A : Type} (alive : Ptr → Bool) (mv : A → A)
    (B : Binds) (a : A) :
    ∀ e ∈ (raiseBinds alive mv B a).2.1, e.1 ∈ B.map Prod.fst := by
  induction B generalizing a with
  | nil => simp [raiseBinds]
  | cons p rest ih =>
    obtain ⟨k, cs⟩ := p
    intro e he
    rw [raiseBinds] at he
    simp only [List.mem_append] at he
    rcases he with he | he
    · rw [raiseVec_trace_key alive mv k cs a e he, List.map_cons]
      exact List.mem_cons_self _ _
    · rw [List.map_cons]
      exact List.mem_cons_of_mem _ (ih _ e he)

theorem raiseBinds_entry_nonempty {A : Type} (alive : Ptr → Bool) (mv : A → A)
    (B : Binds) (a : A) :
    ∀ p ∈ (raiseBinds alive mv B a).1, p.2 ≠ [] := by
  induction B generalizing a with
  | nil => simp [raiseBinds]
  | cons q rest ih =>
    obtain ⟨k, cs⟩ := q
    intro p hp
    rw [raiseBinds] at hp
    simp only [List.mem_append] at hp
    rcases hp with hp | hp
    · cases he : (raiseVec alive mv k cs a).1.isEmpty
      · rw [he] at hp
        simp only [Bool.false_eq_true, if_false, List.mem_singleton] at hp
        subst hp
        simp only [ne_eq]
        intro hnil
        rw [hnil] at he
        simp [List.isEmpty] at he
      · rw [he] at hp
        simp at hp
    · exact ih _ p hp

/-! ### Counting invocations of one user callback -/

theorem countF_filter_le (cs : List LCB) (q : LCB → Bool) (f0 : Nat) :
    countF (cs.filter q) f0 ≤ countF cs f0 :=
  List.Sublist.length_le (List.Sublist.filter _ (List.filter_sublist cs))

theorem countF_cons (c : LCB) (cs : List LCB) (f0 : Nat) :
    countF (c :: cs) f0 = (if c.f == f0 then 1 else 0) + countF cs f0 := by
  simp only [countF, List.filter_cons]
  cases hf : (c.f == f0)
  · simp
  · simp [Nat.add_comm]

theorem countF_filter_of_all (cs : List LCB) (q : LCB → Bool) (f0 : Nat)
    (h : ∀ c ∈ cs, c.f = f0 → q c = true) :
    countF (cs.filter q) f0 = countF cs f0 := by
  induction cs with
  | nil => rfl
  | cons c cs ih =>
    have ih' := ih (fun c hc => h c (List.mem_cons_of_mem _ hc))
    rw [List.filter_cons]
    cases hq : q c
    · have hf : (c.f == f0) = false := by
        cases hf : (c.f == f0)
        · rfl
        · exact absurd (h c (List.mem_cons_self _ _) (by simpa using hf)) (by simp [hq])
      rw [if_neg (by simp [hq]), countF_cons, hf, ih']
      simp
    · rw [if_pos rfl, countF_cons, countF_cons, ih']

theorem countF_filter_of_none (cs : List LCB) (q : LCB → Bool) (f0 : Nat)
    (h : ∀ c ∈ cs, c.f = f0 → q c = false) :
    countF (cs.filter q) f0 = 0 := by
  induction cs with
  | nil => rfl
  | cons c cs ih =>
    have ih' := ih (fun c hc => h c (List.mem_cons_of_mem _ hc))
    rw [List.filter_cons]
    cases hq : q c
    · rw [if_neg (by simp [hq])]
      exact ih'
    · have hf : (c.f == f0) = false := by
        cases hf : (c.f == f0)
        · rfl
        · exact absurd (h c (List.mem_cons_self _ _) (by simpa using hf)) (by simp [hq])
      rw [if_pos rfl, countF_cons, hf, ih']
      simp

theorem countStateF_append (B1 B2 : Binds) (f0 : Nat) :
    countStateF (B1 ++ B2) f0 = countStateF B1 f0 + countStateF B2 f0 := by
  simp [countStateF]

theorem countTraceF_append {A : Type} (t1 t2 : Trace A) (f0 : Nat) :
    countTraceF (t1 ++ t2) f0 = countTraceF t1 f0 + countTraceF t2 f0 := by
  simp [countTraceF]

theorem raiseBinds_countStateF {A : Type} (alive : Ptr → Bool) (mv : A → A)
    (B : Binds) (a : A) (f0 : Nat) :
    countStateF (raiseBinds alive mv B a).1 f0
      = (B.map (fun p => countF (p.2.filter (fun c => runLCB alive c)) f0)).sum := by
  induction B generalizing a with
  | nil => simp [raiseBinds, countStateF]
  | cons p rest ih =>
    obtain ⟨k, cs⟩ := p
    rw [raiseBinds]
    rw [countStateF_append, ih]
    have hkept := raiseVec_fst alive mv k cs a
    cases he : (raiseVec alive mv k cs a).1.isEmpty
    · simp only [Bool.false_eq_true, if_false, List.map_cons, List.sum_cons]
      simp [countStateF, hkept]
    · have hnil : (raiseVec alive mv k cs a).1 = [] := by
        cases hx : (raiseVec alive mv k cs a).1
        · rfl
        · rw [hx] at he
          simp [List.isEmpty] at he
      rw [hnil] at hkept
      simp only [if_true, List.map_cons, List.sum_cons, countStateF, List.map_nil,
        List.sum_nil]
      rw [← hkept]
      simp [countF]

theorem raiseBinds_countTraceF {A : Type} (alive : Ptr → Bool) (mv : A → A)
    (B : Binds) (a : A) (f0 : Nat) :
    countTraceF (raiseBinds alive mv B a).2.1 f0
      = (B.map (fun p => countF (p.2.filter (fun c => invokesLCB alive c)) f0)).sum := by
  induction B generalizing a with
  | nil => simp [raiseBinds, countTraceF]
  | cons p rest ih =>
    obtain ⟨k, cs⟩ := p
    rw [raiseBinds]
    rw [countTraceF_append, ih, raiseVec_trace_countF]
    simp

theorem countStateF_entry_zero (B : Binds) (f0 : Nat) (h : countStateF B f0 = 0) :
    ∀ p ∈ B, countF p.2 f0 = 0 := by
  intro p hp
  have := List.sum_eq_zero_iff.mp h
  exact this _ (List.mem_map.mpr ⟨p, hp, rfl⟩)

theorem Raise_of_countStateF_zero {A : Type} (alive : Ptr → Bool) (mv : A → A)
    (B : Binds) (a : A) (f0 : Nat) (h : countStateF B f0 = 0) :
    countTraceF (Raise alive mv B a).2 f0 = 0
      ∧ countStateF (Raise alive mv B a).1 f0 = 0 := by
  have hz := countStateF_entry_zero B f0 h
  constructor
  · rw [Raise, raiseBinds_countTraceF]
    apply List.sum_eq_zero
    intro x hx
    obtain ⟨p, hp, rfl⟩ := List.mem_map.mp hx
    have := countF_filter_le p.2 (fun c => invokesLCB alive c) f0
    have := hz p hp
    omega
  · rw [Raise, raiseBinds_countStateF]
    apply List.sum_eq_zero
    intro x hx
    obtain ⟨p, hp, rfl⟩ := List.mem_map.mp hx
    have := countF_filter_le p.2 (fun c => runLCB alive c) f0
    have := hz p hp
    omega

theorem raiseSeq_of_countStateF_zero {A : Type} (mv : A → A) (B : Binds)
    (rs : List ((Ptr → Bool) × A)) (f0 : Nat) (h : countStateF B f0 = 0) :
    countTraceF (raiseSeq mv B rs).2 f0 = 0
      ∧ countStateF (raiseSeq mv B rs).1 f0 = 0 := by
  induction rs generalizing B with
  | nil => simpa [raiseSeq, countTraceF] using h
  | cons r rs ih =>
    obtain ⟨al, a⟩ := r
    obtain ⟨h1, h2⟩ := Raise_of_countStateF_zero al mv B a f0 h
    obtain ⟨h3, h4⟩ := ih _ h2
    rw [raiseSeq]
    simp only [countTraceF_append]
    exact ⟨by omega, h4⟩

/-! ### Preservation of well-formedness by every operation -/

theorem WF_InternalBind (B : Binds) (c : LCB) (t : Ptr) (h : WF B) :
    WF (InternalBind B c t) := by
  constructor
  · rw [InternalBind_keys]
    by_cases hc : containsKey B t
    · simp only [hc, if_true]
      exact h.1
    · simp only [hc, Bool.false_eq_true, if_false]
      have ht : t ∉ B.map Prod.fst := fun hm => hc ((containsKey_iff B t).mpr hm)
      simp [List.nodup_append, h.1, ht]
  · intro p hp
    rcases InternalBind_mem B c t p hp with h' | ⟨cs, rfl⟩ | rfl
    · exact h.2 p h'
    · simp
    · simp

theorem WF_eraseKey (B : Binds) (t : Ptr) (h : WF B) : WF (eraseKey B t) :=
  ⟨h.1.sublist (eraseKey_keys_sublist B t),
   fun p hp => h.2 p (eraseKey_subset B t p hp)⟩

theorem WF_Raise {A : Type} (alive : Ptr → Bool) (mv : A → A) (B : Binds) (a : A)
    (h : WF B) : WF (Raise alive mv B a).1 :=
  ⟨h.1.sublist (raiseBinds_keys_sublist alive mv B a),
   raiseBinds_entry_nonempty alive mv B a⟩

theorem WF_of_Remove (B B' : Binds) (t : Ptr) (h : WF B)
    (happ : (Remove B t).map Prod.fst = some B') : WF B' := by
  rw [Remove] at happ
  by_cases ht : t = nullptr
  · rw [if_pos ht] at happ
    simp at happ
  · rw [if_neg ht] at happ
    by_cases hc : containsKey B t = true
    · rw [if_pos hc] at happ
      simp only [Option.map_some', Option.some_inj] at happ
      subst happ
      exact WF_eraseKey B t h
    · rw [if_neg hc] at happ
      simp only [Option.map_some', Option.some_inj] at happ
      subst happ
      exact h

theorem reachable_WF {A : Type} (mv : A → A) (B : Binds) (h : Reachable mv B) :
    WF B := by
  induction h with
  | init => exact ⟨List.nodup_nil, by simp⟩
  | step op B B' hr happ ih =>
    cases op with
    | bindOwning f t once =>
      rw [applyOp, BindOwning] at happ
      by_cases ht : t = nullptr
      · rw [if_pos ht] at happ
        simp at happ
      · rw [if_neg ht, Option.some_inj] at happ
        subst happ
        exact WF_InternalBind _ _ _ ih
    | bindWeak alive f w once =>
      rw [applyOp, Option.some_inj] at happ
      subst happ
      rw [BindWeakCb, lock]
      by_cases hw : alive w = true
      · rw [if_pos hw]
        exact WF_InternalBind _ _ _ ih
      · rw [if_neg hw]
        exact ih
    | bindStandalone f once =>
      rw [applyOp, Option.some_inj] at happ
      subst happ
      exact WF_InternalBind _ _ _ ih
    | removeOp t =>
      rw [applyOp] at happ
      exact WF_of_Remove B B' t ih happ
    | removeWeakOp alive w =>
      rw [applyOp, RemoveWeak, lock] at happ
      by_cases hw : alive w = true
      · rw [if_pos hw] at happ
        exact WF_of_Remove B B' w ih happ
      · rw [if_neg hw] at happ
        simp only [Option.map_some', Option.some_inj] at happ
        subst happ
        exact ih
    | removeSharedOp sp =>
      rw [applyOp] at happ
      cases sp with
      | some t =>
        rw [RemoveShared] at happ
        exact WF_of_Remove B B' t ih happ
      | none =>
        rw [RemoveShared] at happ
        simp only [Option.map_some', Option.some_inj] at happ
        subst happ
        exact ih
    | removeAllOp =>
      rw [applyOp, RemoveAll, Option.some_inj] at happ
      subst happ
      exact ⟨List.nodup_nil, by simp⟩
    | raiseOp alive a =>
      rw [applyOp, Option.some_inj] at happ
      subst happ
      exact WF_Raise alive mv B a ih

/-! ### Per-key slice of the raise trace -/

theorem raiseBinds_trace_filter {A : Type} (alive : Ptr → Bool) (mv : A → A)
    (B : Binds) (a : A) (k : Ptr) (cs : List LCB)
    (hnd : (B.map Prod.fst).Nodup) (hk : lookupKey B k = some cs) :
    ∃ a0 : A, ((raiseBinds alive mv B a).2.1).filter (fun e => e.1 == k)
        = (raiseVec alive mv k cs a0).2.1 := by
  revert hnd hk
  induction B generalizing a with
  | nil =>
    intro hnd hk
    simp [lookupKey] at hk
  | cons p rest ih =>
    intro hnd hk
    obtain ⟨k', cs'⟩ := p
    rw [List.map_cons, List.nodup_cons] at hnd
    rw [raiseBinds]
    simp only [List.filter_append]
    by_cases hkk : k' = k
    · subst hkk
      rw [lookupKey] at hk
      simp only [beq_self_eq_true, if_true, Option.some_inj] at hk
      subst hk
      refine ⟨a, ?_⟩
      have h1 : (raiseVec alive mv k' cs' a).2.1.filter (fun e => e.1 == k')
          = (raiseVec alive mv k' cs' a).2.1 :=
        List.filter_eq_self.mpr (fun e he => by
          rw [raiseVec_trace_key alive mv k' cs' a e he]
          exact beq_self_eq_true k')
      have h2 : ((raiseBinds alive mv rest (raiseVec alive mv k' cs' a).2.2).2.1).filter
          (fun e => e.1 == k') = [] := by
        apply List.filter_eq_nil_iff.mpr
        intro e he hbe
        rw [beq_iff_eq] at hbe
        exact hnd.1 (hbe ▸ raiseBinds_trace_key_mem alive mv rest _ e he)
      rw [h1, h2, List.append_nil]
    · rw [lookupKey_cons_ne k' cs' rest k hkk] at hk
      have h1 : (raiseVec alive mv k' cs' a).2.1.filter (fun e => e.1 == k) = [] := by
        apply List.filter_eq_nil_iff.mpr
        intro e he hbe
        rw [beq_iff_eq] at hbe
        exact hkk (by rw [← raiseVec_trace_key alive mv k' cs' a e he, hbe])
      obtain ⟨a0, h2⟩ := ih _ hnd.2 hk
      rw [h1, h2, List.nil_append]
      exact ⟨a0, rfl⟩

/-! ### Eviction of a key whose callbacks all report dead -/

theorem raise_containsKey_false {A : Type} (alive : Ptr → Bool) (mv : A → A)
    (B : Binds) (a : A) (o : Ptr) (cs : List LCB)
    (hnd : (B.map Prod.fst).Nodup) (hk : lookupKey B o = some cs)
    (hdead : ∀ c ∈ cs, runLCB alive c = false) :
    containsKey (raiseBinds alive mv B a).1 o = false := by
  revert hnd hk
  induction B generalizing a with
  | nil =>
    intro hnd hk
    simp [lookupKey] at hk
  | cons p rest ih =>
    intro hnd hk
    obtain ⟨k', cs'⟩ := p
    rw [List.map_cons, List.nodup_cons] at hnd
    rw [raiseBinds]
    rw [containsKey, List.any_append, ← containsKey, ← containsKey]
    by_cases hkk : k' = o
    · subst hkk
      rw [lookupKey] at hk
      simp only [beq_self_eq_true, if_true, Option.some_inj] at hk
      subst hk
      have hkept : (raiseVec alive mv k' cs' a).1 = [] := by
        rw [raiseVec_fst]
        exact List.filter_eq_nil_iff.mpr (fun c hc hb => by
          rw [hdead c hc] at hb
          exact absurd hb (by simp))
      rw [hkept]
      have h2 : containsKey (raiseBinds alive mv rest (raiseVec alive mv k' cs' a).2.2).1 k'
          = false := by
        rw [Bool.eq_false_iff]
        intro hc
        have hmem := (containsKey_iff _ k').mp hc
        have hsub := raiseBinds_keys_sublist alive mv rest (raiseVec alive mv k' cs' a).2.2
        exact hnd.1 (hsub.mem hmem)
      simp only [List.isEmpty_nil, if_true]
      have hcnil : containsKey ([] : Binds) k' = false := rfl
      rw [hcnil, h2]
      rfl
    · rw [lookupKey_cons_ne k' cs' rest o hkk] at hk
      have h2 := ih ((raiseVec alive mv k' cs' a).2.2) hnd.2 hk
      rw [h2]
      cases he : (raiseVec alive mv k' cs' a).1.isEmpty
      · simp [containsKey, hkk]
      · simp [containsKey]

theorem WF_size_le_callbackCount (B : Binds) (h : ∀ p ∈ B, p.2 ≠ []) :
    Size B ≤ CallbackCount B := by
  induction B with
  | nil => simp [Size, CallbackCount]
  | cons p rest ih =>
    have hp := h p (List.mem_cons_self _ _)
    have h1 : 1 ≤ p.2.length := by
      cases hq : p.2
      · exact absurd hq hp
      · simp
    have := ih (fun q hq => h q (List.mem_cons_of_mem _ hq))
    simp only [Size, CallbackCount, List.length_cons, List.map_cons, List.sum_cons] at *
    omega

theorem Raise_fst {A : Type} (alive : Ptr → Bool) (mv : A → A) (B : Binds) (a : A) :
    (Raise alive mv B a).1 = (raiseBinds alive mv B a).1 := rfl

theorem Raise_snd {A : Type} (alive : Ptr → Bool) (mv : A → A) (B : Binds) (a : A) :
    (Raise alive mv B a).2 = (raiseBinds alive mv B a).2.1 := rfl

theorem raiseSeq_cons {A : Type} (mv : A → A) (B : Binds) (al : Ptr → Bool) (a : A)
    (rs : List ((Ptr → Bool) × A)) :
    raiseSeq mv B ((al, a) :: rs)
      = ((raiseSeq mv (Raise al mv B a).1 rs).1,
         (Raise al mv B a).2 ++ (raiseSeq mv (Raise al mv B a).1 rs).2) := rfl

/-! ### Demonstration registries used to instantiate the theorems -/

/-- Registry with one repeating owning subscription (callback 5) under key 1. -/
def demoOwning : Binds := [(1, [⟨RefKind.owningRef, 5, false⟩])]

/-- Registry with one weak subscription (callback 9) to the object at
address 3, which will be taken as already destroyed. -/
def demoWeakDead : Binds := [(3, [⟨RefKind.weakRef 3, 9, false⟩])]

/-- Registry with one fire-once owning subscription (callback 7) under key 5. -/
def demoOnce : Binds := [(5, [⟨RefKind.owningRef, 7, true⟩])]

/-- Registry for the argument-forwarding defect: two object-less listeners
(callbacks 1 and 2) bound in this order. -/
def demoMove : Binds := BindStandalone (BindStandalone [] 1 false) 2 false

/-! ### The claims -/

/-- C1: for a subscription made through a weak reference whose referenced
object `o` has been destroyed (`alive o = false`; every callback under its
key is such a weak subscription), the next `Raise` removes the subscription
without invoking any user callback under that key, and afterwards `IsBound`
on the weak reference is `false`, the key is gone from the registry, and
`Size` no longer counts it. -/
theorem claim_C1_weak_eviction {A : Type} (alive : Ptr → Bool) (mv : A → A)
    (B : Binds) (a : A) (o : Ptr) (cs : List LCB)
    (hnd : (B.map Prod.fst).Nodup)
    (hdead : alive o = false)
    (hk : lookupKey B o = some cs)
    (hweak : ∀ c ∈ cs, c.ref = RefKind.weakRef o) :
    ((Raise alive mv B a).2).filter (fun e => e.1 == o) = []
      ∧ containsKey (Raise alive mv B a).1 o = false
      ∧ IsBoundWeak alive (Raise alive mv B a).1 o = some false
      ∧ Size (Raise alive mv B a).1 < Size B := by
  have hrun : ∀ c ∈ cs, runLCB alive c = false := by
    intro c hc
    simp [runLCB, hweak c hc, hdead]
  have hinv : ∀ c ∈ cs, invokesLCB alive c = false := by
    intro c hc
    simp [invokesLCB, hweak c hc, hdead]
  have h2 : containsKey (Raise alive mv B a).1 o = false := by
    rw [Raise_fst]
    exact raise_containsKey_false alive mv B a o cs hnd hk hrun
  have h1 : ((Raise alive mv B a).2).filter (fun e => e.1 == o) = [] := by
    obtain ⟨a0, hfil⟩ := raiseBinds_trace_filter alive mv B a o cs hnd hk
    rw [Raise_snd, hfil]
    exact raiseVec_trace_nil alive mv o cs a0 hinv
  have h3 : IsBoundWeak alive (Raise alive mv B a).1 o = some false := by
    have hlock : lock alive o = none := by
      rw [lock, if_neg (by simp [hdead])]
    unfold IsBoundWeak
    rw [hlock]
  have h4 : Size (Raise alive mv B a).1 < Size B := by
    have hsub := raiseBinds_keys_sublist alive mv B a
    have homem : o ∈ B.map Prod.fst := lookupKey_mem_keys B o cs hk
    have hno : o ∉ ((raiseBinds alive mv B a).1.map Prod.fst) := by
      intro hm
      have hc := (containsKey_iff _ o).mpr hm
      rw [Raise_fst] at h2
      rw [h2] at hc
      exact absurd hc (by simp)
    have hlen : ((raiseBinds alive mv B a).1.map Prod.fst).length
        < (B.map Prod.fst).length := by
      apply Nat.lt_of_le_of_ne hsub.length_le
      intro heq
      rw [hsub.eq_of_length heq] at hno
      exact hno homem
    rw [List.length_map, List.length_map] at hlen
    exact hlen
  exact ⟨h1, h2, h3, h4⟩

theorem claim_C1_witness :
    ((fun _ : Ptr => false) 3 = false)
      ∧ (((Raise (fun _ => false) (id : Nat → Nat) demoWeakDead 0).2).filter
            (fun e => e.1 == 3) = []
         ∧ containsKey (Raise (fun _ => false) (id : Nat → Nat) demoWeakDead 0).1 3 = false
         ∧ IsBoundWeak (fun _ => false)
             (Raise (fun _ => false) (id : Nat → Nat) demoWeakDead 0).1 3 = some false
         ∧ Size (Raise (fun _ => false) (id : Nat → Nat) demoWeakDead 0).1
             < Size demoWeakDead) :=
  ⟨rfl, claim_C1_weak_eviction (fun _ => false) id demoWeakDead 0 3
    [⟨RefKind.weakRef 3, 9, false⟩] (by decide) rfl (by decide) (by decide)⟩

/-- C2: a fire-once subscription — any lifecycle callback with the once flag
set, of any of the three shapes, whose liveness check passes at the raise
that first processes it — is invoked exactly once across an arbitrary
sequence of raises: exactly once in that first raise, removed from the
registry in that same pass, and invoked zero times by all later raises. -/
theorem claim_C2_once_semantics {A : Type} (mv : A → A) (B : Binds) (f0 : Nat)
    (al1 : Ptr → Bool) (a1 : A) (rs : List ((Ptr → Bool) × A))
    (hcount : countStateF B f0 = 1)
    (honce : ∀ p ∈ B, ∀ c ∈ p.2, c.f = f0 → c.once = true ∧ invokesLCB al1 c = true) :
    countTraceF (Raise al1 mv B a1).2 f0 = 1
      ∧ countStateF (Raise al1 mv B a1).1 f0 = 0
      ∧ countTraceF (raiseSeq mv B ((al1, a1) :: rs)).2 f0 = 1
      ∧ countStateF (raiseSeq mv B ((al1, a1) :: rs)).1 f0 = 0 := by
  have h1 : countTraceF (Raise al1 mv B a1).2 f0 = 1 := by
    rw [Raise_snd, raiseBinds_countTraceF]
    have hmap : (B.map fun p => countF (p.2.filter (fun c => invokesLCB al1 c)) f0)
        = (B.map fun p => countF p.2 f0) :=
      List.map_congr_left (fun p hp =>
        countF_filter_of_all _ _ _ (fun c hc hcf => (honce p hp c hc hcf).2))
    rw [hmap]
    exact hcount
  have h2 : countStateF (Raise al1 mv B a1).1 f0 = 0 := by
    rw [Raise_fst, raiseBinds_countStateF]
    apply List.sum_eq_zero
    intro x hx
    obtain ⟨p, hp, rfl⟩ := List.mem_map.mp hx
    exact countF_filter_of_none _ _ _
      (fun c hc hcf => runLCB_of_once al1 c (honce p hp c hc hcf).1)
  obtain ⟨h3, h4⟩ := raiseSeq_of_countStateF_zero mv (Raise al1 mv B a1).1 rs f0 h2
  refine ⟨h1, h2, ?_, ?_⟩
  · rw [raiseSeq_cons]
    simp only [countTraceF_append]
    rw [h1, h3]
  · rw [raiseSeq_cons]
    exact h4

theorem claim_C2_witness :
    countStateF demoOnce 7 = 1
      ∧ countTraceF (raiseSeq (id : Nat → Nat) demoOnce
          [((fun _ => true), 0), ((fun _ => true), 1)]).2 7 = 1
      ∧ countStateF (raiseSeq (id : Nat → Nat) demoOnce
          [((fun _ => true), 0), ((fun _ => true), 1)]).1 7 = 0 := by
  have h := claim_C2_once_semantics (id : Nat → Nat) demoOnce 7 (fun _ => true) 0
    [((fun _ => true), 1)] (by decide) (by decide)
  exact ⟨by decide, h.2.2.1, h.2.2.2⟩

/-- C3: binding under key `k` appends to `k`'s stored sequence (insertion
order within a key is preserved by bind), and a raise invokes `k`'s callbacks
in exactly that stored order: the `k`-slice of the invocation trace lists the
identities of the live callbacks of `k` in sequence order. -/
theorem claim_C3_bind_order {A : Type} (alive : Ptr → Bool) (mv : A → A)
    (B : Binds) (a : A) (k : Ptr) (cs : List LCB) (c : LCB)
    (hnd : (B.map Prod.fst).Nodup) (hk : lookupKey B k = some cs) :
    lookupKey (InternalBind B c k) k = some (cs ++ [c])
      ∧ ((Raise alive mv B a).2.filter (fun e => e.1 == k)).map (fun e => e.2.1)
          = (cs.filter (fun c => invokesLCB alive c)).map (fun c => c.f) := by
  constructor
  · rw [InternalBind_lookup, hk]
    rfl
  · obtain ⟨a0, hfil⟩ := raiseBinds_trace_filter alive mv B a k cs hnd hk
    rw [Raise_snd, hfil, raiseVec_trace_map]

theorem claim_C3_witness :
    lookupKey (InternalBind demoOwning ⟨RefKind.owningRef, 6, true⟩ 1) 1
        = some [⟨RefKind.owningRef, 5, false⟩, ⟨RefKind.owningRef, 6, true⟩]
      ∧ ((Raise (fun _ => true) (id : Nat → Nat) demoOwning 0).2.filter
            (fun e => e.1 == 1)).map (fun e => e.2.1) = [5] := by
  have h := claim_C3_bind_order (fun _ => true) (id : Nat → Nat) demoOwning 0 1
    [⟨RefKind.owningRef, 5, false⟩] ⟨RefKind.owningRef, 6, true⟩ (by decide) (by decide)
  exact ⟨h.1, h.2.trans (by decide)⟩

/-- C4: in every reachable registry state, a subscriber key is present iff
its callback sequence is non-empty, and a raise pass from such a state never
leaves an entry with an empty sequence — the key is removed in the same pass
in which its sequence becomes empty. -/
theorem claim_C4_registry_invariant {A : Type} (mv : A → A) (B : Binds)
    (h : Reachable mv B) :
    (∀ k : Ptr, containsKey B k = true ↔ ∃ cs, lookupKey B k = some cs ∧ cs ≠ [])
      ∧ ∀ (alive : Ptr → Bool) (a : A) (p : Ptr × List LCB),
          p ∈ (Raise alive mv B a).1 → p.2 ≠ [] := by
  have hwf := reachable_WF mv B h
  constructor
  · intro k
    rw [lookupKey_isSome]
    constructor
    · rintro ⟨cs, hcs⟩
      exact ⟨cs, hcs, hwf.2 (k, cs) (lookupKey_mem B k cs hcs)⟩
    · rintro ⟨cs, hcs, _⟩
      exact ⟨cs, hcs⟩
  · intro alive a p hp
    rw [Raise_fst] at hp
    exact raiseBinds_entry_nonempty alive mv B a p hp

theorem claim_C4_witness :
    containsKey demoOwning 1 = true
      ↔ ∃ cs, lookupKey demoOwning 1 = some cs ∧ cs ≠ [] := by
  have hr : Reachable (id : Nat → Nat) demoOwning :=
    Reachable.step (Op.bindOwning 5 1 false) [] demoOwning Reachable.init (by decide)
  exact (claim_C4_registry_invariant id demoOwning hr).1 1

/-- C5 (refuted by the code): `Raise` re-forwards the same by-value argument
pack to each lifecycle callback inside the loop
(`cb(std::forward<Args>(args)...)`, Event.h line 430), so with an argument
type whose move empties the source (`mv = fun _ => 0`, modelling a by-value
`std::string` whose moved-from state reads empty), the first listener of the
raise observes the passed value 5 while the second listener observes the
moved-from value 0 — the listeners do not receive the same logical argument
value. -/
theorem claim_C5_move_defect :
    (Raise (fun _ => true) (fun _ => (0 : Nat)) demoMove 5).2
        = [(StandaloneCallbackKey, 1, 5), (StandaloneCallbackKey, 2, 0)]
      ∧ (5 : Nat) ≠ 0 := by
  constructor
  · decide
  · decide

/-- C6: binding with a null owning pointer trips the non-null assertion (no
successor state, modelled `none`), while binding through an already-expired
weak reference is a silent no-op that leaves the registry unchanged. -/
theorem claim_C6_null_vs_expired_bind (B : Binds) (f : Nat) (once : Bool)
    (alive : Ptr → Bool) (w : Ptr) (hw : alive w = false) :
    BindOwning B f nullptr once = none
      ∧ BindWeakCb alive B f w once = B := by
  constructor
  · rw [BindOwning, if_pos rfl]
  · have hlock : lock alive w = none := by
      rw [lock, if_neg (by simp [hw])]
    unfold BindWeakCb
    rw [hlock]

theorem claim_C6_witness :
    ((fun _ : Ptr => false) 3 = false)
      ∧ (BindOwning demoOwning 9 nullptr false = none
         ∧ BindWeakCb (fun _ => false) demoOwning 9 3 false = demoOwning) :=
  ⟨rfl, claim_C6_null_vs_expired_bind demoOwning 9 false (fun _ => false) 3 rfl⟩

/-- C7: `Remove` erases the key's whole sequence and returns `true` exactly
when the key was present, so removing a bound key twice yields `true` then
`false`; removing a never-bound key, or removing through an expired weak
reference, yields `false` with the registry unchanged (a boolean result, no
assertion for these cases). -/
theorem claim_C7_remove_idempotent (B : Binds) (t u w : Ptr) (alive : Ptr → Bool)
    (hnd : (B.map Prod.fst).Nodup)
    (ht : t ≠ nullptr) (hct : containsKey B t = true)
    (hu : u ≠ nullptr) (hcu : containsKey B u = false)
    (hw : alive w = false) :
    Remove B t = some (eraseKey B t, true)
      ∧ containsKey (eraseKey B t) t = false
      ∧ Remove (eraseKey B t) t = some (eraseKey B t, false)
      ∧ Remove B u = some (B, false)
      ∧ RemoveWeak alive B w = some (B, false) := by
  have h2 : containsKey (eraseKey B t) t = false := eraseKey_not_containsKey B t hnd
  refine ⟨?_, h2, ?_, ?_, ?_⟩
  · rw [Remove, if_neg ht, if_pos hct]
  · rw [Remove, if_neg ht, if_neg (by simp [h2])]
  · rw [Remove, if_neg hu, if_neg (by simp [hcu])]
  · have hlock : lock alive w = none := by
      rw [lock, if_neg (by simp [hw])]
    unfold RemoveWeak
    rw [hlock]

theorem claim_C7_witness :
    Remove demoOwning 1 = some (eraseKey demoOwning 1, true)
      ∧ containsKey (eraseKey demoOwning 1) 1 = false
      ∧ Remove (eraseKey demoOwning 1) 1 = some (eraseKey demoOwning 1, false)
      ∧ Remove demoOwning 2 = some (demoOwning, false)
      ∧ RemoveWeak (fun _ => false) demoOwning 3 = some (demoOwning, false) :=
  claim_C7_remove_idempotent demoOwning 1 2 3 (fun _ => false)
    (by decide) (by decide) (by decide) (by decide) (by decide) rfl

/-- C8: after `RemoveAll` the registry is empty and `CallbackCount` and
`Size` are 0; a subsequent raise — like any raise of an event with zero
subscribers — returns normally, invokes no callback, and leaves the registry
empty. -/
theorem claim_C8_clear_absolute {A : Type} (alive : Ptr → Bool) (mv : A → A)
    (B : Binds) (a : A) :
    RemoveAll B = []
      ∧ CallbackCount (RemoveAll B) = 0
      ∧ Size (RemoveAll B) = 0
      ∧ Raise alive mv (RemoveAll B) a = ([], [])
      ∧ Raise alive mv [] a = ([], []) :=
  ⟨rfl, rfl, rfl, rfl, rfl⟩

/-- C9: in every reachable registry state, `CallbackCount ≥ Size ≥ 0`, and
`Size` equals the number of distinct subscriber keys (not the number of
callbacks). -/
theorem claim_C9_count_invariant {A : Type} (mv : A → A) (B : Binds)
    (h : Reachable mv B) :
    Size B ≤ CallbackCount B
      ∧ 0 ≤ Size B
      ∧ Size B = ((B.map Prod.fst).toFinset).card := by
  have hwf := reachable_WF mv B h
  refine ⟨WF_size_le_callbackCount B hwf.2, Nat.zero_le _, ?_⟩
  rw [List.toFinset_card_of_nodup hwf.1, List.length_map]
  rfl

theorem claim_C9_witness :
    Size demoOwning ≤ CallbackCount demoOwning
      ∧ Size demoOwning = ((demoOwning.map Prod.fst).toFinset).card := by
  have hr : Reachable (id : Nat → Nat) demoOwning :=
    Reachable.step (Op.bindOwning 5 1 false) [] demoOwning Reachable.init (by decide)
  have h := claim_C9_count_invariant id demoOwning hr
  exact ⟨h.1, h.2.2⟩

/-- C10: `IsBound` and `Remove` on an empty shared pointer return `false`
and leave the registry unchanged, without tripping the null-pointer
assertion that the raw-pointer overloads perform on a null pointer. -/
theorem claim_C10_null_shared (B : Binds) :
    IsBoundShared B none = some false
      ∧ RemoveShared B none = some (B, false)
      ∧ IsBound B nullptr = none
      ∧ Remove B nullptr = none := by
  refine ⟨rfl, rfl, ?_, ?_⟩
  · rw [IsBound, if_pos rfl]
  · rw [Remove, if_pos rfl]

end Sparkle
